import Mathlib

/-!
Verification of the ncqa-parser document-structure pipeline.

The Python modules `mylib/factor.py`, `mylib/element.py` and
`mylib/standard.py` are shallowly embedded here.  Text is modelled as
`List Char`; Python's `re` scans are translated into explicit
deterministic character scanners that reproduce the leftmost-match,
greedy/lazy semantics of the concrete patterns used by the code
(each scanner's doc comment records the pattern it implements).
Fallible operations (Python `raise`) return `Option`/`none`.
-/

namespace Ncqa

/-- Python `\s` on ASCII input: space, tab, newline, carriage return,
form feed, vertical tab. -/
def isWS (c : Char) : Bool :=
  c == ' ' || c == '\t' || c == '\n' || c == '\x0d' || c == '\x0b' || c == '\x0c'

/-- Python `\d` on ASCII input. -/
def isDig (c : Char) : Bool := decide ('0' ≤ c) && decide (c ≤ '9')

/-- ASCII upper-case letter, the class `[A-Z]`. -/
def isUpper (c : Char) : Bool := decide ('A' ≤ c) && decide (c ≤ 'Z')

/-- ASCII lower-casing, for the `re.IGNORECASE` scans and `str.lower()`. -/
def lowerC (c : Char) : Char :=
  if 'A' ≤ c ∧ c ≤ 'Z' then Char.ofNat (c.toNat + 32) else c

/-- Python `\w` on ASCII input (letter, digit or underscore). -/
def isWordChar (c : Char) : Bool :=
  isUpper c || (decide ('a' ≤ c) && decide (c ≤ 'z')) || isDig c || c == '_'

/-- Exact prefix test (case-sensitive literal in a pattern). -/
def prefixAt : List Char → List Char → Bool
  | [], _ => true
  | _ :: _, [] => false
  | p :: ps, c :: cs => p == c && prefixAt ps cs

/-- Case-insensitive prefix test; the pattern is given in lower case. -/
def prefixCI : List Char → List Char → Bool
  | [], _ => true
  | _ :: _, [] => false
  | p :: ps, c :: cs => p == lowerC c && prefixCI ps cs

/-- Length of the maximal run of characters satisfying `f`. -/
def runLen (f : Char → Bool) : List Char → Nat
  | [] => 0
  | c :: cs => if f c then runLen f cs + 1 else 0

/-- Python `str.strip()`: drop whitespace at both ends. -/
def stripL (l : List Char) : List Char :=
  ((l.dropWhile isWS).reverse.dropWhile isWS).reverse

/-- Python `str.rstrip()`. -/
def rstripL (l : List Char) : List Char :=
  (l.reverse.dropWhile isWS).reverse

/-- Python `str.splitlines()` for `\n`-separated text: no entry is
produced after a terminal newline, and the empty string yields `[]`. -/
def splitlinesPy (l : List Char) : List (List Char) :=
  go l []
where
  go : List Char → List Char → List (List Char)
    | [], acc => if acc = [] then [] else [acc.reverse]
    | c :: cs, acc => if c = '\n' then acc.reverse :: go cs [] else go cs (c :: acc)

/-- Python `str.split(sep)` for a single-character separator: keeps empty
pieces, and the empty string yields one empty piece. -/
def splitOnC (sep : Char) (l : List Char) : List (List Char) :=
  go l []
where
  go : List Char → List Char → List (List Char)
    | [], acc => [acc.reverse]
    | c :: cs, acc => if c = sep then acc.reverse :: go cs [] else go cs (c :: acc)

/-- Python `str.split()` with no argument: split on whitespace runs,
dropping empty pieces. -/
def splitWS (l : List Char) : List (List Char) :=
  go l []
where
  go : List Char → List Char → List (List Char)
    | [], acc => if acc = [] then [] else [acc.reverse]
    | c :: cs, acc =>
      if isWS c then (if acc = [] then go cs [] else acc.reverse :: go cs [])
      else go cs (c :: acc)

/-- Join a list of character lists with the separator character. -/
def joinC (sep : Char) : List (List Char) → List Char
  | [] => []
  | [x] => x
  | x :: xs => x ++ sep :: joinC sep xs

/-- `re.sub(r"\s+", " ", ·)`: collapse every whitespace run to a single
space.  The flag records whether the previous character was whitespace. -/
def normWSGo : List Char → Bool → List Char
  | [], _ => []
  | c :: cs, inRun =>
    if isWS c then (if inRun then normWSGo cs true else ' ' :: normWSGo cs true)
    else c :: normWSGo cs false

def normWS (l : List Char) : List Char := normWSGo l false

/-- Python `str.isdigit()` on ASCII text: nonempty and all digits. -/
def isDigitStr (l : List Char) : Bool := !l.isEmpty && l.all isDig

/-- Decimal value of a digit string. -/
def natOfDigits : List Char → Nat :=
  List.foldl (fun n c => n * 10 + (c.toNat - '0'.toNat)) 0

/-- Generic position scanner: returns the index of the first position at
which `p` holds; `p` receives whether the position is a line start (start
of text or preceded by a newline) and the remaining suffix. -/
def findPos (p : Bool → List Char → Bool) : List Char → Bool → Nat → Option Nat
  | [], _, _ => none
  | c :: cs, atLS, pos =>
    if p atLS (c :: cs) then some pos else findPos p cs (c == '\n') (pos + 1)

/-- Generic first-match scanner for line-anchored patterns: runs the
attempt `f` at every line start, left to right, returning the first
successful value (Python `re.search` with a `(?m)^`-anchored pattern). -/
def scanLS (f : List Char → Option α) : List Char → Bool → Option α
  | [], _ => none
  | c :: cs, atLS =>
    if atLS then
      match f (c :: cs) with
      | some v => some v
      | none => scanLS f cs (c == '\n')
    else scanLS f cs (c == '\n')

/-- Position `q` of `l` is a line start, given that position `0` has
line-start status `b` (a position is a line start when it is position `0`
or is preceded by a newline). -/
def lsAt (l : List Char) (b : Bool) : Nat → Prop
  | 0 => b = true
  | q + 1 => (l.drop q).head? = some '\n'

/-- `mylib/datamodels.py`: record produced for each factor. -/
structure Factor where
  factor_index : List Char
  factor_title : List Char
  factor_description : List Char
  factor_explanation : List Char
  factor_critical : Bool
deriving DecidableEq, Repr

namespace factor

/-- One attempt of `(?m)^\s*\d+\.\s+` at a line start: optional leading
whitespace (which in multiline mode may absorb blank lines), one or more
digits, a literal dot, then at least one whitespace character (greedy, so
it may absorb a newline and following indentation).  Returns the number of
characters consumed by the match. -/
def tryNumItem (l : List Char) : Option Nat :=
  let w := runLen isWS l
  let r1 := l.drop w
  let d := runLen isDig r1
  if d = 0 then none
  else match r1.drop d with
    | '.' :: r2 =>
      let s := runLen isWS r2
      if s = 0 then none else some (w + d + 1 + s)
    | _ => none

/-- Non-overlapping count of matches of `(?m)^\s*\d+\.\s+` (the scan of
`get_num_factors`); `skip` counts characters still inside the previous
match. -/
def numGo : List Char → Bool → Nat → Nat
  | [], _, _ => 0
  | c :: cs, atLS, skip =>
    if 0 < skip then numGo cs (c == '\n') (skip - 1)
    else if atLS then
      match tryNumItem (c :: cs) with
      | some k => numGo cs (c == '\n') (k - 1) + 1
      | none => numGo cs (c == '\n') 0
    else numGo cs (c == '\n') 0

/-- `factor.get_num_factors`: number of numbered-factor matches. -/
def get_num_factors (factors_text : List Char) : Nat :=
  numGo factors_text true 0

/-- `factor.get_index`: the string `Factor {index}`. -/
def get_index (_factors_text : List Char) (index : Nat) : List Char :=
  "Factor ".data ++ Nat.toDigits 10 index

/-- Attempt of `^Factor\s+{i}:\s*(.*)` at a line start (case-sensitive):
returns the captured rest of line when the pattern matches here. -/
def tryTitleExpl (i : Nat) (l : List Char) : Option (List Char) :=
  if prefixAt "Factor".data l then
    let r1 := l.drop 6
    let w := runLen isWS r1
    if w = 0 then none
    else
      let key := Nat.toDigits 10 i ++ [':']
      let r2 := r1.drop w
      if prefixAt key r2 then
        let r3 := r2.drop key.length
        let w2 := runLen isWS r3
        some ((r3.drop w2).takeWhile (fun c => !(c == '\n')))
      else none
  else none

/-- `factor.get_title_from_explanation`. -/
def get_title_from_explanation (element_explanation : List Char) (i : Nat) :
    Option (List Char) :=
  match scanLS (tryTitleExpl i) element_explanation true with
  | none => none
  | some g =>
    let t := stripL g
    if t = [] then none else some t

/-- Attempt of `^\s*{i}\.\s*(.+)` at a line start: after the dot the
greedy `\s*` yields characters back until `(.+)` can match at least one
non-newline character. -/
def tryTitleFt (i : Nat) (l : List Char) : Option (List Char) :=
  let w := runLen isWS l
  let r1 := l.drop w
  let key := Nat.toDigits 10 i ++ ['.']
  if prefixAt key r1 then
    let r2 := r1.drop key.length
    let ws := r2.takeWhile isWS
    let rest := r2.drop ws.length
    if rest ≠ [] then some (rest.takeWhile (fun c => !(c == '\n')))
    else
      match (ws.filter (fun c => !(c == '\n'))).getLast? with
      | some c => some [c]
      | none => none
  else none

/-- `factor.get_title_from_factors_text`. -/
def get_title_from_factors_text (factors_text : List Char) (i : Nat) :
    Option (List Char) :=
  match scanLS (tryTitleFt i) factors_text true with
  | none => none
  | some g =>
    let t := stripL g
    let t := if t.getLast? = some '.' then stripL t.dropLast else t
    if t = [] then none else some t

/-- `factor.get_title`: explanation line first, numbered line second,
error (`none`) when both fail. -/
def get_title (element_explanation factors_text : List Char) (i : Nat) :
    Option (List Char) :=
  match get_title_from_explanation element_explanation i with
  | some t => some t
  | none => get_title_from_factors_text factors_text i

/-- Lookahead `^\s*\d+\.\s` (content part; the line-start anchor is
checked by the caller). -/
def numLinePred (l : List Char) : Bool :=
  let w := runLen isWS l
  let r := l.drop w
  let d := runLen isDig r
  if d = 0 then false
  else
    match r.drop d with
    | '.' :: x :: _ => isWS x
    | _ => false

/-- Attempt, at a line start, of `^\s*{i}\.\s*(.*?)` up to the first
position where `stop` holds (the lookahead) or the end of text.  The
greedy `\s*` after the dot runs first; the lazy group then scans from
there. -/
def tryFactorBlock (stop : Bool → List Char → Bool) (i : Nat) (l : List Char) :
    Option (List Char) :=
  let w := runLen isWS l
  let r1 := l.drop w
  let key := Nat.toDigits 10 i ++ ['.']
  if prefixAt key r1 then
    let r2 := r1.drop key.length
    let ws := r2.takeWhile isWS
    let content := r2.drop ws.length
    let atLS0 : Bool := ws.getLast? == some '\n'
    some (match findPos stop content atLS0 0 with
          | some e => content.take e
          | none => content)
  else none

/-- `intro` part of `factor.get_description`: the text before the first
line start from which `\s*1\.` matches, with trailing `[:\s]+` removed
and the rest stripped. -/
def getIntro (factors_text : List Char) : List Char :=
  match findPos
      (fun a l => a && prefixAt "1.".data (l.drop (runLen isWS l)))
      factors_text true 0 with
  | some q =>
    stripL (((factors_text.take q).reverse.dropWhile
      (fun c => isWS c ∨ c == ':')).reverse)
  | none => []

/-- `factor.get_description`. -/
def get_description (factors_text : List Char) (i : Nat) : Option (List Char) :=
  let intro := getIntro factors_text
  match scanLS (tryFactorBlock (fun a l => a && numLinePred l) i) factors_text true with
  | none => none
  | some g =>
    let d := stripL (normWS g)
    if d = [] then none
    else if intro ≠ [] then
      some (stripL ((intro.reverse.dropWhile (fun c => c == ':' ∨ c == '.')).reverse
        ++ ' ' :: d))
    else some d

/-- Footnote line `(?mi)^\*Critical factors\b`. -/
def critFootPred (l : List Char) : Bool :=
  if prefixCI "*critical factors".data l then
    match (l.drop 17).head? with
    | some c => ¬ isWordChar c
    | none => true
  else false

/-- The numbered block of factor `i` as extracted by `check_critical`:
bounded by the next numbered line, a literal `*Critical` occurrence, or
the end of text. -/
def critBlock (factors_text : List Char) (i : Nat) : Option (List Char) :=
  scanLS
    (tryFactorBlock
      (fun a l => (a && numLinePred l) || prefixAt "*Critical".data l) i)
    factors_text true

/-- Whether a `*Critical factors` footnote line occurs anywhere in the
factors text. -/
def footnotePresent (factors_text : List Char) : Bool :=
  (findPos (fun a l => a && critFootPred l) factors_text true 0).isSome

/-- `factor.check_critical`. -/
def check_critical (factors_text : List Char) (i : Nat) : Bool :=
  match critBlock factors_text i with
  | none => false
  | some g =>
    let hasStar : Bool := (rstripL g).getLast? == some '*'
    hasStar && footnotePresent factors_text

/-- Character class `[\d,\-–—\s]` of the factor-spec capture. -/
def isSpecClass (c : Char) : Bool :=
  isDig c || c == ',' || c == '-' || c == '–' || c == '—' || isWS c

/-- Lookahead `^Factors?\s+\d|^Exceptions?|^Related information`
(case-insensitive; the line-start anchor is checked by the caller). -/
def explStopPred (l : List Char) : Bool :=
  (if prefixCI "factor".data l then
     let r := l.drop 6
     let r := if prefixCI "s".data r then r.drop 1 else r
     let w := runLen isWS r
     if w = 0 then false
     else
       match (r.drop w).head? with
       | some c => isDig c
       | none => false
   else false)
  || prefixCI "exception".data l || prefixCI "related information".data l

/-- End offset of `\s+([\d,\-–—\s]+)` inside the block-header pattern:
the largest offset `e ≥ 2`, within the maximal spec-class run, at which
the remainder `(?::[^\n]*)?\n` can match (both quantifiers are greedy, so
the engine settles on the largest feasible `e`). -/
def specEnd (r : List Char) : Nat → Option Nat
  | 0 => none
  | 1 => none
  | e + 2 =>
    (match (r.drop (e + 2)).head? with
     | some ':' =>
       if (r.drop (e + 3)).contains '\n' then some (e + 2)
       else specEnd r (e + 1)
     | some '\n' => some (e + 2)
     | _ => specEnd r (e + 1))

/-- Attempt, at a line start, of one block of `factor.get_explanation`:
`^Factors?\s+([\d,\-–—\s]+)(?::[^\n]*)?\n(.*?)` up to the stop lookahead
or end of text (case-insensitive).  Returns the spec capture, the content
capture and the total number of characters consumed. -/
def tryExplBlock (l : List Char) : Option (List Char × List Char × Nat) :=
  if prefixCI "factor".data l then
    let hdr := if prefixCI "s".data (l.drop 6) then 7 else 6
    let r := l.drop hdr
    let w := runLen isWS r
    if w = 0 then none
    else
      match specEnd r (runLen isSpecClass r) with
      | none => none
      | some e =>
        let w' := min w (e - 1)
        let spec := (r.drop w').take (e - w')
        let tail := r.drop e
        let tlen := (if tail.head? = some ':' then
                       (tail.takeWhile (fun c => !(c == '\n'))).length else 0) + 1
        let content0 := r.drop (e + tlen)
        let cLen :=
          match findPos (fun a s => a && explStopPred s) content0 true 0 with
          | some v => v
          | none => content0.length
        some (spec, content0.take cLen, hdr + e + tlen + cLen)
  else none

/-- `pattern.findall` scan of the block pattern, non-overlapping, left to
right, attempting only at line starts. -/
def explGo : List Char → Bool → Nat → List (List Char × List Char)
  | [], _, _ => []
  | c :: cs, atLS, skip =>
    if 0 < skip then explGo cs (c == '\n') (skip - 1)
    else if atLS then
      match tryExplBlock (c :: cs) with
      | some (sp, ct, k) => (sp, ct) :: explGo cs (c == '\n') (k - 1)
      | none => explGo cs (c == '\n') 0
    else explGo cs (c == '\n') 0

/-- The list of `(factor_spec, content)` matches found by
`factor.get_explanation` on the stripped explanation text. -/
def explMatches (element_explanation : List Char) : List (List Char × List Char) :=
  explGo (stripL element_explanation) true 0

/-- Normalisation applied to a captured factor spec: remove spaces (only
the space character, as Python `replace(" ", "")` does), unify en and em
dashes into `-`. -/
def normSpec (sp : List Char) : List Char :=
  (sp.filter (fun c => !(c == ' '))).map (fun c => if c = '–' ∨ c = '—' then '-' else c)

/-- Expansion of one comma-separated part of a factor spec: `a-b` expands
to the inclusive range when both sides are digit strings (and to nothing
otherwise); a plain digit part expands to itself; a part with more than
one dash makes the Python tuple unpacking raise (`none`). -/
def expandPart (part : List Char) : Option (List Nat) :=
  if part.contains '-' then
    match splitOnC '-' part with
    | [s, e] =>
      if isDigitStr s ∧ isDigitStr e then
        some (List.range' (natOfDigits s) (natOfDigits e + 1 - natOfDigits s))
      else some []
    | _ => none
  else some (if isDigitStr part then [natOfDigits part] else [])

/-- Expanded integer set (as a list) of a captured factor spec. -/
def expandSpec (sp : List Char) : Option (List Nat) :=
  go (splitOnC ',' (normSpec sp))
where
  go : List (List Char) → Option (List Nat)
    | [] => some []
    | p :: ps => do
      let a ← expandPart p
      let b ← go ps
      pure (a ++ b)

/-- The accumulation loop of `factor.get_explanation`: cleaned contents
of every block whose expanded spec contains `i`, in match order;  `none`
when a spec fails to unpack. -/
def explLoop (i : Nat) : List (List Char × List Char) → Option (List (List Char))
  | [] => some []
  | (sp, ct) :: rest => do
    let s ← expandSpec sp
    let tail ← explLoop i rest
    pure (if s.contains i then normWS (stripL ct) :: tail else tail)

/-- The placeholder returned when no block is found at all. -/
def noExplFound : List Char := "No factor explanation provided.".data

/-- `factor.get_explanation`. -/
def get_explanation (element_explanation : List Char) (i : Nat) :
    Option (List Char) :=
  let ms := explMatches element_explanation
  if ms = [] then some noExplFound
  else
    match explLoop i ms with
    | none => none
    | some [] => none
    | some es => some (stripL (joinC ' ' es))

end factor

namespace element

/-- Stop lookahead of `get_factors_text`: a line beginning with
`*Critical` or `Scoring`, case-insensitively. -/
def ftStop (l : List Char) : Bool :=
  prefixCI "*critical".data l || prefixCI "scoring".data l

/-- `element.get_factors_text`: the stripped text before the first
`*Critical`/`Scoring` line; `none` when no such line exists. -/
def get_factors_text (element_body : List Char) : Option (List Char) :=
  if prefixAt "Not Applicable".data element_body then some []
  else
    match findPos (fun a l => a && ftStop l) element_body true 0 with
    | some p => some (stripL (element_body.take p))
    | none => none

/-- A terminating line of the explanation section: `Examples` followed by
a whitespace run containing a newline (the pattern `^Examples\s*\n`,
case-insensitive). -/
def examplesPred (l : List Char) : Bool :=
  prefixCI "examples".data l && ((l.drop 8).takeWhile isWS).contains '\n'

/-- Attempt of `^Explanation\s*(.*?)^Examples\s*\n` at a line start
(case-insensitive). -/
def tryExplSection (l : List Char) : Option (List Char) :=
  if prefixCI "explanation".data l then
    let r1 := l.drop 11
    let ws := r1.takeWhile isWS
    let content := r1.drop ws.length
    match findPos (fun a s => a && examplesPred s) content (ws.getLast? == some '\n') 0 with
    | some e => some (content.take e)
    | none => none
  else none

/-- `element.get_explanation`. -/
def get_explanation (element_body : List Char) : Option (List Char) :=
  if prefixAt "Not Applicable".data element_body then some element_body
  else
    match scanLS tryExplSection element_body true with
    | none => none
    | some g =>
      let t := stripL g
      if t = [] then none else some t

/-- One iteration of the factor loop of `element_to_factors`. -/
def mkFactor (ft ex : List Char) (i : Nat) : Option Factor := do
  let t ← factor.get_title ex ft i
  let d ← factor.get_description ft i
  let e ← factor.get_explanation ex i
  pure ⟨factor.get_index ft i, t, d, e, factor.check_critical ft i⟩

/-- The factor loop of `element_to_factors`: factors `1 .. n` in order. -/
def factorsLoop (ft ex : List Char) : Nat → Option (List Factor)
  | 0 => some []
  | n + 1 => do
    let l ← factorsLoop ft ex n
    let f ← mkFactor ft ex (n + 1)
    pure (l ++ [f])

/-- The factor-extraction core of `element_to_factors`, given the factors
text and the element explanation. -/
def factorsFromTexts (ft ex : List Char) : Option (List Factor) :=
  factorsLoop ft ex (factor.get_num_factors ft)

/-- `element.element_to_factors`. -/
def element_to_factors (element_body : List Char) : Option (List Factor) := do
  let ft ← get_factors_text element_body
  let ex ← get_explanation element_body
  factorsFromTexts ft ex

/-- One scoring category as assembled by `format_scoring` (the Python
function serialises this record to JSON). -/
structure ScoreEntry where
  description : List Char
  min_num_factors : Option Nat
  max_num_factors : Option Nat
deriving DecidableEq, Repr

/-- The three fixed categories of `format_scoring`, in order. -/
structure ScoringResult where
  met : ScoreEntry
  partially_met : ScoreEntry
  not_met : ScoreEntry
deriving DecidableEq, Repr

/-- One attempt of `(\d+)(?:-(\d+))?\s*factors?` (case-insensitive) at a
position whose character is a digit; the optional range group is greedy
and the attempt falls back to the single-number reading only when the
next character is not a dash followed by a digit. -/
def tryPhrase (l : List Char) : Option (Nat × Nat) :=
  let a := l.takeWhile isDig
  let r := l.drop a.length
  match r with
  | '-' :: r1 =>
    let b := r1.takeWhile isDig
    if b = [] then none
    else
      let r2 := r1.drop b.length
      if prefixCI "factor".data (r2.drop (runLen isWS r2)) then
        some (natOfDigits a, natOfDigits b)
      else none
  | _ =>
    if prefixCI "factor".data (r.drop (runLen isWS r)) then
      some (natOfDigits a, natOfDigits a)
    else none

/-- `factor_pattern.search`: first factor-count phrase in the text, as
the pair (min, max). -/
def firstFactorPhrase : List Char → Option (Nat × Nat)
  | [] => none
  | c :: cs =>
    if isDig c then
      match tryPhrase (c :: cs) with
      | some v => some v
      | none => firstFactorPhrase cs
    else firstFactorPhrase cs

/-- Stripped non-blank lines, as `format_scoring` and `get_data_source`
prepare them. -/
def cleanLines (text : List Char) : List (List Char) :=
  ((splitlinesPy text).map stripL).filter (fun l => ¬ l = [])

/-- Index of the first occurrence of `t` (Python `list.index`). -/
def idxOf (t : List Char) : List (List Char) → Option Nat
  | [] => none
  | l :: ls => if l = t then some 0 else (idxOf t ls).map (· + 1)

/-- A description boundary: a line whose first character is an ASCII
upper-case letter (the pattern `(?m)^([A-Z].*)`). -/
def isBoundary (l : List Char) : Bool :=
  match l.head? with
  | some c => isUpper c
  | none => false

/-- Group the description-block lines into one group per boundary line;
lines before the first boundary are dropped, matching the slicing of the
Python code which starts at the first regex match. -/
def groupGo : List (List Char) → List (List Char) → List (List (List Char))
  | [], cur => if cur = [] then [] else [cur.reverse]
  | l :: ls, cur =>
    if isBoundary l then
      (if cur = [] then groupGo ls [l] else cur.reverse :: groupGo ls [l])
    else
      (if cur = [] then groupGo ls [] else groupGo ls (l :: cur))

/-- One category entry: description with newlines replaced by spaces and
stripped; numeric bounds from the first factor-count phrase when one is
present. -/
def mkScoreEntry (desc : List Char) : ScoreEntry :=
  let mm := firstFactorPhrase desc
  ⟨stripL (desc.map (fun c => if c = '\n' then ' ' else c)),
   mm.map Prod.fst, mm.map Prod.snd⟩

/-- The three description spans of `format_scoring`: `none` when the
`Not Met` line is missing, the description block is empty, or the number
of boundary matches differs from three. -/
def scoringDescs (scoring_text : List Char) : Option (List (List Char)) :=
  match idxOf "Not Met".data (cleanLines scoring_text) with
  | none => none
  | some idx =>
    if (cleanLines scoring_text).drop (idx + 1) = [] then none
    else
      match groupGo ((cleanLines scoring_text).drop (idx + 1)) [] with
      | [g1, g2, g3] =>
        some [stripL (joinC '\n' g1), stripL (joinC '\n' g2), stripL (joinC '\n' g3)]
      | _ => none

/-- `element.format_scoring`, producing the structured value that the
Python function dumps to JSON. -/
def format_scoring (scoring_text : List Char) : Option ScoringResult :=
  match scoringDescs scoring_text with
  | some [d1, d2, d3] => some ⟨mkScoreEntry d1, mkScoreEntry d2, mkScoreEntry d3⟩
  | _ => none

/-- Result of `get_data_source`: Python returns the empty string for a
`Not Applicable` element and a list of strings otherwise. -/
inductive DSResult where
  | notApplicable
  | sources (xs : List (List Char))
deriving DecidableEq, Repr

/-- Comma-split with stripping, dropping empty pieces. -/
def splitTrim (line : List Char) : List (List Char) :=
  ((splitOnC ',' line).map stripL).filter (fun s => ¬ s = [])

/-- The line loop of `get_data_source`: the first line equal to
`data source` (case-insensitively) yields the following line, the first
line equal to `data` yields the line two positions later; missing
follower lines and a missing marker line both raise (`none`). -/
def dsGo : List (List Char) → Option DSResult
  | [] => none
  | l :: ls =>
    if l.map lowerC = "data source".data then
      match ls with
      | nxt :: _ => some (.sources (splitTrim nxt))
      | [] => none
    else if l.map lowerC = "data".data then
      match ls with
      | _ :: x :: _ => some (.sources (splitTrim x))
      | _ => none
    else dsGo ls

/-- `element.get_data_source`. -/
def get_data_source (element_body : List Char) : Option DSResult :=
  if prefixAt "Not Applicable".data element_body then some .notApplicable
  else dsGo (cleanLines element_body)

end element

namespace standard

/-- Attempt of `^Element\s+[A-Z]{1,2}:\s+.*` at a line start; returns
the length of the whole match.  The letter group is greedy: two upper-case
letters followed by a colon are preferred, then one letter followed by a
colon. -/
def tryElemHeader (l : List Char) : Option Nat :=
  if prefixAt "Element".data l then
    let r1 := l.drop 7
    let w := runLen isWS r1
    if w = 0 then none
    else
      let r2 := r1.drop w
      let nl : Option Nat :=
        match r2 with
        | a :: b :: ':' :: _ => if isUpper a ∧ isUpper b then some 2 else none
        | _ => none
      let nl : Option Nat :=
        match nl with
        | some k => some k
        | none =>
          match r2 with
          | a :: ':' :: _ => if isUpper a then some 1 else none
          | _ => none
      match nl with
      | none => none
      | some k =>
        let r3 := r2.drop (k + 1)
        let w2 := runLen isWS r3
        if w2 = 0 then none
        else some (7 + w + k + 1 + w2 +
          ((r3.drop w2).takeWhile (fun c => !(c == '\n'))).length)
  else none

/-- `finditer` scan for element headers: non-overlapping matches at line
starts, as pairs (start position, match length). -/
def elemGo : List Char → Bool → Nat → Nat → List (Nat × Nat)
  | [], _, _, _ => []
  | c :: cs, atLS, skip, pos =>
    if 0 < skip then elemGo cs (c == '\n') (skip - 1) (pos + 1)
    else if atLS then
      match tryElemHeader (c :: cs) with
      | some k => (pos, k) :: elemGo cs (c == '\n') (k - 1) (pos + 1)
      | none => elemGo cs (c == '\n') 0 (pos + 1)
    else elemGo cs (c == '\n') 0 (pos + 1)

/-- All element-header matches of a standard body. -/
def elementMatches (standard_body : List Char) : List (Nat × Nat) :=
  elemGo standard_body true 0 0

/-- Double-letter normalisation of an element title: when the second
whitespace token is longer than two characters the first letter is a
strike-through rendering artifact and is dropped. -/
def normTitle (t : List Char) : List Char :=
  match splitWS t with
  | _ :: tok1 :: rest =>
    if 2 < tok1.length then
      "Element ".data ++ tok1.drop 1 ++ ' ' :: joinC ' ' rest
    else t
  | _ => t

/-- Python dict assignment on an insertion-ordered association list. -/
def upsert (k v : List Char) : List (List Char × List Char) →
    List (List Char × List Char)
  | [] => [(k, v)]
  | (k', v') :: rest =>
    if k' = k then (k, v) :: rest else (k', v') :: upsert k v rest

/-- The (normalised, stripped) title of one element-header match. -/
def titleOf (body : List Char) (m : Nat × Nat) : List Char :=
  normTitle (stripL ((body.drop m.1).take m.2))

/-- The end of the span of the current match: the start of the next
match, or the end of the body. -/
def spanEnd (len : Nat) : List (Nat × Nat) → Nat
  | [] => len
  | (s2, _) :: _ => s2

/-- The entry-building loop of `standard_to_elements`: each match spans
from its start to the start of the next match (or the end of the body);
the body slice starts after the (normalised) title length. -/
def buildElems (body : List Char) : List (Nat × Nat) →
    List (List Char × List Char) → List (List Char × List Char)
  | [], acc => acc
  | (s, len) :: rest, acc =>
    buildElems body rest
      (upsert (titleOf body (s, len))
        (stripL ((body.drop (s + (titleOf body (s, len)).length)).take
          (spanEnd body.length rest - (s + (titleOf body (s, len)).length))))
        acc)

/-- `standard.standard_to_elements`. -/
def standard_to_elements (standard_body : List Char) :
    Option (List (List Char × List Char)) :=
  match elementMatches standard_body with
  | [] => none
  | ms => some (buildElems standard_body ms [])

/-- The header-plus-body spans used by `standard_to_elements`: each match
start paired with the next match start (the last with the body length). -/
def spansGo (len : Nat) : List (Nat × Nat) → List (Nat × Nat)
  | [] => []
  | (s, _) :: rest => (s, spanEnd len rest) :: spansGo len rest

/-- The spans of all element-header matches of a body. -/
def spansOf (body : List Char) : List (Nat × Nat) :=
  spansGo body.length (elementMatches body)

/-- The normalised titles of all element-header matches, in match order. -/
def elementTitles (body : List Char) : List (List Char) :=
  (elementMatches body).map (titleOf body)

/-- Character class `[A-Z0-9.: -]` of the standard-header pattern. -/
def stdHeaderClass (c : Char) : Bool :=
  isUpper c || isDig c || c == '.' || c == ':' || c == ' ' || c == '-'

/-- `re.match` of `^[A-Z]{2,4}\s*\d+[A-Z0-9.: -]*:` against one line:
two to four upper-case letters, optional whitespace, at least one digit,
then a colon somewhere in the following run of header-class characters. -/
def stdHeaderMatch (line : List Char) : Bool :=
  let letters := runLen isUpper line
  if letters < 2 ∨ 4 < letters then false
  else
    let r := line.drop letters
    let r2 := r.drop (runLen isWS r)
    match r2.head? with
    | some c => if isDig c then (r2.takeWhile stdHeaderClass).contains ':' else false
    | none => false

/-- Stripped non-blank lines of one page. -/
def pageLines (page : List Char) : List (List Char) :=
  ((splitlinesPy page).map stripL).filter (fun l => ¬ l = [])

/-- The page loop of `separate_pages_by_standard_v2`, carrying the
accumulated mapping, the currently open standard and the pending body
texts.  Note that when a header is found while no standard is open, the
pending texts are not cleared. -/
def v2Go : List (List Char) → List (List Char × List Char) →
    Option (List Char) → List (List Char) → List (List Char × List Char)
  | [], acc, cur, txts =>
    (match cur with
     | some std => if txts = [] then acc else upsert std (stripL (joinC '\n' txts)) acc
     | none => acc)
  | page :: rest, acc, cur, txts =>
    if (pageLines page).length < 5 then v2Go rest acc cur txts
    else if stdHeaderMatch ((pageLines page).getD 4 []) then
      match cur with
      | some std =>
        v2Go rest (upsert std (stripL (joinC '\n' txts)) acc)
          (some ((pageLines page).getD 0 []))
          [stripL (joinC '\n' ((pageLines page).drop 4))]
      | none =>
        v2Go rest acc (some ((pageLines page).getD 0 []))
          (txts ++ [stripL (joinC '\n' ((pageLines page).drop 4))])
    else v2Go rest acc cur (txts ++ [stripL (joinC '\n' ((pageLines page).drop 4))])

/-- `standard.separate_pages_by_standard_v2`. -/
def separate_pages_by_standard_v2 (pages : List (List Char)) :
    List (List Char × List Char) :=
  v2Go pages [] none []

end standard

/-! ## Generic lemmas about the scanners -/

theorem prefixCI_take (pat : List Char) :
    ∀ (x : List Char) (k : Nat), prefixCI pat (x.take k) = true →
      prefixCI pat x = true := by
  induction pat with
  | nil => intro x k _; rfl
  | cons p ps ih =>
    intro x k h
    cases x with
    | nil => simp [prefixCI] at h
    | cons c cs =>
      cases k with
      | zero => simp [prefixCI] at h
      | succ k =>
        simp only [List.take_succ_cons, prefixCI, Bool.and_eq_true] at h ⊢
        exact ⟨h.1, ih cs k h.2⟩

theorem prefixCI_append (p1 p2 : List Char) :
    ∀ x : List Char, prefixCI (p1 ++ p2) x = true → prefixCI p1 x = true := by
  induction p1 with
  | nil => intro x _; rfl
  | cons p ps ih =>
    intro x h
    cases x with
    | nil => simp [prefixCI] at h
    | cons c cs =>
      simp only [List.cons_append, prefixCI, Bool.and_eq_true] at h ⊢
      exact ⟨h.1, ih cs h.2⟩

theorem lsAt_cons (c : Char) (cs : List Char) (b : Bool) :
    ∀ q, lsAt (c :: cs) b (q + 1) ↔ lsAt cs (c == '\n') q
  | 0 => by
    simp only [lsAt, List.drop_zero, List.head?_cons, Option.some.injEq]
    exact ⟨fun h => by simp [h], fun h => by simpa using h⟩
  | q + 1 => by
    simp only [lsAt, List.drop_succ_cons]

theorem findPos_shift (P : Bool → List Char → Bool) :
    ∀ (l : List Char) (b : Bool) (k : Nat),
      findPos P l b k = (findPos P l b 0).map (· + k) := by
  intro l
  induction l with
  | nil => intro b k; rfl
  | cons c cs ih =>
    intro b k
    rw [findPos, findPos]
    by_cases h : P b (c :: cs) = true
    · simp [h]
    · rw [if_neg h, if_neg h, ih (c == '\n') (k + 1), ih (c == '\n') 1]
      cases findPos P cs (c == '\n') 0 with
      | none => simp
      | some v => simp only [Option.map_some', Option.some.injEq]; omega

theorem findPos_before (P : List Char → Bool) :
    ∀ (l : List Char) (b : Bool) (p : Nat),
      findPos (fun a s => a && P s) l b 0 = some p →
      ∀ q, q < p → lsAt l b q → P (l.drop q) = false := by
  intro l
  induction l with
  | nil => intro b p h; simp [findPos] at h
  | cons c cs ih =>
    intro b p h q hq hls
    rw [findPos] at h
    by_cases hc : (b && P (c :: cs)) = true
    · rw [if_pos hc] at h
      simp only [Option.some.injEq] at h
      omega
    · rw [if_neg hc] at h
      rw [findPos_shift] at h
      cases hf : findPos (fun a s => a && P s) cs (c == '\n') 0 with
      | none => rw [hf] at h; simp at h
      | some p' =>
        rw [hf] at h
        simp only [Option.map_some', Option.some.injEq] at h
        cases q with
        | zero =>
          have hb : b = true := hls
          subst hb
          simp only [Bool.true_and] at hc
          simpa using hc
        | succ q' =>
          have := ih (c == '\n') p' hf q' (by omega) ((lsAt_cons c cs b q').mp hls)
          simpa [List.drop_succ_cons] using this

theorem findPos_found (P : List Char → Bool) :
    ∀ (l : List Char) (b : Bool) (p : Nat),
      findPos (fun a s => a && P s) l b 0 = some p →
      lsAt l b p ∧ P (l.drop p) = true ∧ p < l.length := by
  intro l
  induction l with
  | nil => intro b p h; simp [findPos] at h
  | cons c cs ih =>
    intro b p h
    rw [findPos] at h
    by_cases hc : (b && P (c :: cs)) = true
    · rw [if_pos hc] at h
      simp only [Option.some.injEq] at h
      subst h
      rcases Bool.and_eq_true_iff.mp hc with ⟨hb, hP⟩
      exact ⟨hb, by simpa using hP, by simp⟩
    · rw [if_neg hc] at h
      rw [findPos_shift] at h
      cases hf : findPos (fun a s => a && P s) cs (c == '\n') 0 with
      | none => rw [hf] at h; simp at h
      | some p' =>
        rw [hf] at h
        simp only [Option.map_some', Option.some.injEq] at h
        subst h
        obtain ⟨h1, h2, h3⟩ := ih (c == '\n') p' hf
        exact ⟨(lsAt_cons c cs b p').mpr h1, by simpa [List.drop_succ_cons] using h2,
          by simpa using Nat.succ_lt_succ h3⟩

/-! ## The factor-explanation loop -/

theorem explLoop_all_nomatch (i : Nat) :
    ∀ ms : List (List Char × List Char),
      (∀ m ∈ ms, ∀ s, factor.expandSpec m.1 = some s → s.contains i = false) →
      factor.explLoop i ms = none ∨ factor.explLoop i ms = some [] := by
  intro ms
  induction ms with
  | nil => intro _; exact Or.inr rfl
  | cons m rest ih =>
    intro h
    obtain ⟨sp, ct⟩ := m
    rw [factor.explLoop]
    cases hs : factor.expandSpec sp with
    | none => left; rfl
    | some s =>
      have hni : i ∉ s := by
        have := h (sp, ct) (by simp) s hs
        simpa using this
      cases ih (fun m hm s' hs' => h m (by simp [hm]) s' hs') with
      | inl h' => left; simp [h']
      | inr h' => right; simp [h', hni]

theorem explLoop_filter (i : Nat) :
    ∀ ms : List (List Char × List Char),
      (∀ m ∈ ms, (factor.expandSpec m.1).isSome = true) →
      factor.explLoop i ms = some
        ((ms.filter (fun m => ((factor.expandSpec m.1).getD []).contains i)).map
          (fun m => normWS (stripL m.2))) := by
  intro ms
  induction ms with
  | nil => intro _; rfl
  | cons m rest ih =>
    intro h
    obtain ⟨sp, ct⟩ := m
    obtain ⟨s, hs⟩ := Option.isSome_iff_exists.mp (h (sp, ct) (by simp))
    rw [factor.explLoop, hs, ih (fun m hm => h m (by simp [hm]))]
    by_cases hm : i ∈ s
    · simp [List.filter_cons, hs, hm]
    · simp [List.filter_cons, hs, hm]

/-! ## Claim theorems -/

/-- Claim C3: `check_critical(factors_text, i)` returns true if and only
if the numbered block of factor `i` (bounded by the next numbered line, a
critical-footnote marker or the end of text) ends, after right-stripping,
with an asterisk AND a `*Critical factors` footnote line occurs somewhere
in the factors text; in particular, on
`"1. Foo*\n2. Bar\n*Critical factors are required."` it returns true for
factor 1 and false for factor 2. -/
theorem C3_check_critical_iff :
    (∀ (ft : List Char) (i : Nat),
      factor.check_critical ft i = true ↔
        (∃ g, factor.critBlock ft i = some g ∧ (rstripL g).getLast? = some '*') ∧
          factor.footnotePresent ft = true) ∧
    factor.check_critical "1. Foo*\n2. Bar\n*Critical factors are required.".data 1
      = true ∧
    factor.check_critical "1. Foo*\n2. Bar\n*Critical factors are required.".data 2
      = false := by
  refine ⟨fun ft i => ?_, by decide, by decide⟩
  unfold factor.check_critical
  cases h : factor.critBlock ft i with
  | none => simp
  | some g => simp [Bool.and_eq_true, beq_iff_eq]

/-- Claim C6: `get_explanation(text, i)` returns the fixed placeholder
string (instead of raising) whenever the text contains no factor block at
all, and raises (`none`) whenever at least one block exists but no
block's expanded integer set contains `i`. -/
theorem C6_placeholder_and_error (ex : List Char) (i : Nat) :
    (factor.explMatches ex = [] →
      factor.get_explanation ex i = some factor.noExplFound) ∧
    (factor.explMatches ex ≠ [] →
      (∀ m ∈ factor.explMatches ex, ∀ s, factor.expandSpec m.1 = some s →
        s.contains i = false) →
      factor.get_explanation ex i = none) := by
  constructor
  · intro h
    unfold factor.get_explanation
    simp [h]
  · intro h hall
    unfold factor.get_explanation
    rw [if_neg h]
    cases explLoop_all_nomatch i (factor.explMatches ex) hall with
    | inl h' => rw [h']
    | inr h' => rw [h']

/-- Witness for C6: a text with no block at all yields the placeholder,
and a text whose only block is `Factors 2` raises for factor 1. -/
theorem C6_placeholder_and_error_witness :
    factor.get_explanation "hello".data 1 = some factor.noExplFound ∧
    factor.get_explanation "Factors 2\nBBB".data 1 = none :=
  ⟨(C6_placeholder_and_error "hello".data 1).1 (by decide),
   (C6_placeholder_and_error "Factors 2\nBBB".data 1).2 (by decide) (by decide)⟩

/-- Claim C5: on an explanation text consisting of `Factor(s) <spec>`
blocks, `get_explanation` returns the space-joined concatenation of the
(whitespace-normalised) contents of every block whose expanded integer
set contains `i`; in particular, on
`"Factors 1,3\nAAA\nFactors 2\nBBB"` it returns `AAA` for factor 1,
`BBB` for factor 2 and `AAA` for factor 3. -/
theorem C5_explanation_blocks :
    (∀ (ex : List Char) (i : Nat),
      factor.explMatches ex ≠ [] →
      (∀ m ∈ factor.explMatches ex, (factor.expandSpec m.1).isSome = true) →
      (∃ m ∈ factor.explMatches ex,
        ((factor.expandSpec m.1).getD []).contains i = true) →
      factor.get_explanation ex i = some (stripL (joinC ' '
        (((factor.explMatches ex).filter
            (fun m => ((factor.expandSpec m.1).getD []).contains i)).map
          (fun m => normWS (stripL m.2)))))) ∧
    factor.get_explanation "Factors 1,3\nAAA\nFactors 2\nBBB".data 1
      = some "AAA".data ∧
    factor.get_explanation "Factors 1,3\nAAA\nFactors 2\nBBB".data 2
      = some "BBB".data ∧
    factor.get_explanation "Factors 1,3\nAAA\nFactors 2\nBBB".data 3
      = some "AAA".data := by
  refine ⟨fun ex i hne hwf hmem => ?_, by decide, by decide, by decide⟩
  unfold factor.get_explanation
  rw [if_neg hne, explLoop_filter i _ hwf]
  obtain ⟨m, hm, hc⟩ := hmem
  cases hfil : (factor.explMatches ex).filter
      (fun m => ((factor.expandSpec m.1).getD []).contains i) with
  | nil =>
    have : m ∈ (factor.explMatches ex).filter
        (fun m => ((factor.expandSpec m.1).getD []).contains i) :=
      List.mem_filter.mpr ⟨hm, hc⟩
    rw [hfil] at this
    exact absurd this (List.not_mem_nil m)
  | cons x xs => simp [hfil]

/-- The fields of a factor built by one loop iteration. -/
theorem mkFactor_fields (ft ex : List Char) (i : Nat) (f : Factor)
    (h : element.mkFactor ft ex i = some f) :
    f.factor_index = factor.get_index ft i ∧
    f.factor_critical = factor.check_critical ft i := by
  unfold element.mkFactor at h
  rcases Option.bind_eq_some.mp h with ⟨t, _, h2⟩
  rcases Option.bind_eq_some.mp h2 with ⟨d, _, h3⟩
  rcases Option.bind_eq_some.mp h3 with ⟨e, _, h4⟩
  simp only [Option.pure_def, Option.some.injEq] at h4
  subst h4
  exact ⟨rfl, rfl⟩

/-- The factor loop yields one record per index, in index order. -/
theorem factorsLoop_spec (ft ex : List Char) :
    ∀ (n : Nat) (l : List Factor), element.factorsLoop ft ex n = some l →
      l.length = n ∧
      l.map Factor.factor_index = (List.range n).map
        (fun j => "Factor ".data ++ Nat.toDigits 10 (j + 1)) := by
  intro n
  induction n with
  | zero =>
    intro l h
    simp only [element.factorsLoop, Option.some.injEq] at h
    subst h
    exact ⟨rfl, rfl⟩
  | succ n ih =>
    intro l h
    rw [element.factorsLoop] at h
    rcases Option.bind_eq_some.mp h with ⟨l', hl', h2⟩
    rcases Option.bind_eq_some.mp h2 with ⟨f, hf, h3⟩
    simp only [Option.pure_def, Option.some.injEq] at h3
    subst h3
    obtain ⟨hlen, hmap⟩ := ih l' hl'
    have hidx := (mkFactor_fields ft ex (n + 1) f hf).1
    constructor
    · simp [hlen]
    · rw [List.map_append, hmap, List.range_succ, List.map_append]
      simp [hidx, factor.get_index, hlen]

/-- Every record produced by the loop comes from one loop iteration. -/
theorem factorsLoop_mem (ft ex : List Char) :
    ∀ (n : Nat) (l : List Factor), element.factorsLoop ft ex n = some l →
      ∀ f ∈ l, ∃ i, element.mkFactor ft ex i = some f := by
  intro n
  induction n with
  | zero =>
    intro l h
    simp only [element.factorsLoop, Option.some.injEq] at h
    subst h
    intro f hf
    exact absurd hf (List.not_mem_nil f)
  | succ n ih =>
    intro l h
    rw [element.factorsLoop] at h
    rcases Option.bind_eq_some.mp h with ⟨l', hl', h2⟩
    rcases Option.bind_eq_some.mp h2 with ⟨f', hf', h3⟩
    simp only [Option.pure_def, Option.some.injEq] at h3
    subst h3
    intro f hf
    rcases List.mem_append.mp hf with hmem | hmem
    · exact ih l' hl' f hmem
    · exact ⟨n + 1, by rw [List.mem_singleton.mp hmem]; exact hf'⟩

/-- Counterexample for C1 as stated: on the factors text `2. Foo` (one
numbered-line match) and the empty explanation text, extraction raises
(produces no records) rather than producing one record. -/
theorem C1_counterexample :
    element.factorsFromTexts "2. Foo".data "".data = none ∧
    factor.get_num_factors "2. Foo".data = 1 := by decide

/-- Claim C1 (amended): whenever factor extraction succeeds, it produces
exactly `get_num_factors` records whose index fields are
`Factor 1` .. `Factor N` in order. -/
theorem C1_factor_records (ft ex : List Char) (l : List Factor)
    (h : element.factorsFromTexts ft ex = some l) :
    l.length = factor.get_num_factors ft ∧
    l.map Factor.factor_index = (List.range (factor.get_num_factors ft)).map
      (fun j => "Factor ".data ++ Nat.toDigits 10 (j + 1)) :=
  factorsLoop_spec ft ex _ l h

/-- Witness for C1: a one-factor extraction that succeeds. -/
theorem C1_factor_records_witness :
    ([⟨"Factor 1".data, "Foo".data, "Foo".data, "some text".data, false⟩] :
        List Factor).length = factor.get_num_factors "1. Foo".data :=
  (C1_factor_records "1. Foo".data "Factor 1: Foo\nsome text".data
    [⟨"Factor 1".data, "Foo".data, "Foo".data, "some text".data, false⟩]
    (by decide)).1

theorem dropWhile_eq_drop (p : Char → Bool) :
    ∀ l : List Char, l.dropWhile p = l.drop (l.takeWhile p).length := by
  intro l
  induction l with
  | nil => rfl
  | cons c cs ih =>
    by_cases h : p c = true
    · simp [List.dropWhile_cons, List.takeWhile_cons, h, ih]
    · simp [List.dropWhile_cons, List.takeWhile_cons, h]

theorem eq_take_of_append (v w x : List Char) (h : x = v ++ w) :
    v = x.take v.length := by
  subst h
  rw [List.take_left]

/-- `strip` keeps a contiguous interior slice of its input. -/
theorem stripL_decomp (m : List Char) :
    ∃ a t, stripL m = (m.drop a).take t := by
  refine ⟨(m.takeWhile isWS).length,
    ((m.dropWhile isWS).reverse.dropWhile isWS).reverse.length, ?_⟩
  unfold stripL
  rw [← dropWhile_eq_drop]
  have hu : m.dropWhile isWS =
      ((m.dropWhile isWS).reverse.dropWhile isWS).reverse ++
        ((m.dropWhile isWS).reverse.takeWhile isWS).reverse := by
    conv_lhs => rw [← List.reverse_reverse (m.dropWhile isWS),
      ← List.takeWhile_append_dropWhile isWS (m.dropWhile isWS).reverse]
    rw [List.reverse_append]
  exact eq_take_of_append _ _ _ hu

theorem head?_take_pos (y : List Char) (n : Nat) (hn : 0 < n) :
    (y.take n).head? = y.head? := by
  cases n with
  | zero => omega
  | succ n => cases y <;> simp

/-- A satisfied footnote predicate includes the literal footnote text. -/
theorem critFootPred_prefixCI (x : List Char)
    (h : factor.critFootPred x = true) :
    prefixCI "*critical factors".data x = true := by
  unfold factor.critFootPred at h
  by_cases hp : prefixCI "*critical factors".data x = true
  · exact hp
  · rw [if_neg hp] at h
    exact absurd h (by simp)

/-- A true critical flag requires the footnote to be present. -/
theorem check_critical_foot (ft : List Char) (i : Nat)
    (h : factor.check_critical ft i = true) :
    factor.footnotePresent ft = true := by
  unfold factor.check_critical at h
  cases hb : factor.critBlock ft i with
  | none => rw [hb] at h; exact absurd h (by simp)
  | some g =>
    rw [hb] at h
    simp only [Bool.and_eq_true] at h
    exact h.2

theorem ftStop_of_crit (x : List Char)
    (h : prefixCI "*critical".data x = true) : element.ftStop x = true := by
  unfold element.ftStop
  rw [h]
  rfl

/-- Key lemma for C4: the factors text is the stripped prefix of the body
before the first `*Critical`/`Scoring` line, so a footnote line inside it
can only sit at its very start (exposed by the leading strip). -/
theorem footnote_leading (body : List Char) (p : Nat)
    (hp : findPos (fun a l => a && element.ftStop l) body true 0 = some p)
    (hfoot : factor.footnotePresent (stripL (body.take p)) = true) :
    factor.critFootPred (stripL (body.take p)) = true := by
  unfold factor.footnotePresent at hfoot
  rw [Option.isSome_iff_exists] at hfoot
  obtain ⟨q, hq⟩ := hfoot
  obtain ⟨hls, hpred, hqlen⟩ := findPos_found _ _ true q hq
  cases q with
  | zero => simpa using hpred
  | succ q' =>
    exfalso
    obtain ⟨a, t, hdec⟩ := stripL_decomp (body.take p)
    rw [hdec] at hls hpred hqlen
    -- bounds
    have hb1 : (((body.take p).drop a).take t).length ≤ t := by
      rw [List.length_take]
      exact Nat.min_le_left _ _
    have hb2 : (((body.take p).drop a).take t).length ≤ (body.take p).length - a := by
      rw [List.length_take, List.length_drop]
      exact Nat.min_le_right _ _
    have hlen2 : (body.take p).length ≤ p := by
      rw [List.length_take]
      exact Nat.min_le_left _ _
    have haq : a + q' + 1 < p := by omega
    -- the line start transfers to the body
    have hls' : (body.drop (a + q')).head? = some '\n' := by
      have h1 : ((((body.take p).drop a).take t).drop q').head? = some '\n' := hls
      rw [List.drop_take, List.drop_drop] at h1
      rw [head?_take_pos _ _ (by omega : 0 < t - q')] at h1
      rw [List.drop_take] at h1
      rw [head?_take_pos _ _ (by omega : 0 < p - (a + q'))] at h1
      exact h1
    have hlsbody : lsAt body true (a + q' + 1) := by
      simpa [lsAt] using hls'
    -- the footnote text transfers to the body
    have hpre : prefixCI "*critical factors".data (body.drop (a + (q' + 1))) = true := by
      have h1 := critFootPred_prefixCI _ hpred
      rw [List.drop_take, List.drop_drop] at h1
      have h2 := prefixCI_take "*critical factors".data _ _ h1
      rw [List.drop_take] at h2
      exact prefixCI_take "*critical factors".data _ _ h2
    rw [← Nat.add_assoc] at hpre
    have hcrit9 : prefixCI "*critical".data (body.drop (a + q' + 1)) = true := by
      have hsplit : "*critical factors".data = "*critical".data ++ " factors".data := by
        decide
      exact prefixCI_append "*critical".data " factors".data _ (by rwa [hsplit] at hpre)
    have hstop := ftStop_of_crit _ hcrit9
    have := findPos_before element.ftStop body true p hp (a + q' + 1) haq hlsbody
    rw [this] at hstop
    exact absurd hstop (by simp)

/-- Counterexample for C4 as stated: an element body whose factors
section starts with an indented critical footnote produces a factor with
`factor_critical = true`. -/
theorem C4_counterexample :
    (element.element_to_factors
      "  *Critical factors needed\n1. Foo*\nScoring\nExplanation\nFactor 1: Foo\nsome text\nExamples\nend".data).map
        (List.map Factor.factor_critical) = some [true] := by decide

/-- Claim C4 (amended): every factor returned by `element_to_factors` has
`factor_critical = false` unless the extracted factors text itself begins
with a `*Critical factors` footnote (possible only when the element body
starts with an indented footnote line that the strip exposes at a line
start). -/
theorem C4_critical_needs_leading_footnote (body : List Char)
    (l : List Factor) (f : Factor)
    (h : element.element_to_factors body = some l) (hf : f ∈ l)
    (hc : f.factor_critical = true) :
    factor.critFootPred ((element.get_factors_text body).getD []) = true := by
  unfold element.element_to_factors at h
  rcases Option.bind_eq_some.mp h with ⟨ft, hft, h2⟩
  rcases Option.bind_eq_some.mp h2 with ⟨ex, hex, h3⟩
  obtain ⟨i, hmk⟩ := factorsLoop_mem ft ex _ l h3 f hf
  have hcrit : factor.check_critical ft i = true := by
    rw [← (mkFactor_fields ft ex i f hmk).2]
    exact hc
  have hfoot := check_critical_foot ft i hcrit
  rw [hft, Option.getD_some]
  unfold element.get_factors_text at hft
  by_cases hna : prefixAt "Not Applicable".data body = true
  · rw [if_pos hna] at hft
    injection hft with hft
    subst hft
    exact absurd hfoot (by decide)
  · rw [if_neg hna] at hft
    cases hfp : findPos (fun a l => a && element.ftStop l) body true 0 with
    | none => rw [hfp] at hft; exact absurd hft (by simp)
    | some p =>
      rw [hfp] at hft
      injection hft with hft
      subst hft
      exact footnote_leading body p hfp hfoot

/-- Witness for the amended C4: the counterexample body does start with
the exposed footnote. -/
theorem C4_critical_needs_leading_footnote_witness :
    factor.critFootPred ((element.get_factors_text
      "  *Critical factors needed\n1. Foo*\nScoring\nExplanation\nFactor 1: Foo\nsome text\nExamples\nend".data).getD [])
      = true :=
  C4_critical_needs_leading_footnote
    "  *Critical factors needed\n1. Foo*\nScoring\nExplanation\nFactor 1: Foo\nsome text\nExamples\nend".data
    [⟨"Factor 1".data, "Foo".data, "*Critical factors needed Foo*".data,
      "some text".data, true⟩]
    ⟨"Factor 1".data, "Foo".data, "*Critical factors needed Foo*".data,
      "some text".data, true⟩
    (by decide) (by decide) (by decide)

/-- The three description spans, when produced, always form a 3-list. -/
theorem scoringDescs_shape (text : List Char) (ds : List (List Char))
    (h : element.scoringDescs text = some ds) :
    ∃ d1 d2 d3, ds = [d1, d2, d3] := by
  unfold element.scoringDescs at h
  split at h
  · exact absurd h (by simp)
  · split at h
    · exact absurd h (by simp)
    · split at h
      · exact ⟨_, _, _, (Option.some.inj h).symm⟩
      · exact absurd h (by simp)

/-- Claim C7: for each of the three scoring-category description spans,
`format_scoring` extracts the first `(\d+)(-(\d+))?\s*factors?` phrase
(case-insensitively): a range yields (min, max), a single count yields
min = max, and with no phrase both numeric fields are absent. -/
theorem C7_scoring_phrase :
    (∀ (text : List Char) (ds : List (List Char)),
      element.scoringDescs text = some ds →
      element.format_scoring text = some
        ⟨element.mkScoreEntry (ds.getD 0 []), element.mkScoreEntry (ds.getD 1 []),
         element.mkScoreEntry (ds.getD 2 [])⟩ ∧
      ∀ d ∈ ds,
        (element.mkScoreEntry d).min_num_factors
            = (element.firstFactorPhrase d).map Prod.fst ∧
        (element.mkScoreEntry d).max_num_factors
            = (element.firstFactorPhrase d).map Prod.snd) ∧
    element.format_scoring
      "Met\nPartially Met\nNot Met\nThe organization meets 5 factors\nThe organization meets 3-4 factors\nNo scoring text here".data
      = some ⟨⟨"The organization meets 5 factors".data, some 5, some 5⟩,
              ⟨"The organization meets 3-4 factors".data, some 3, some 4⟩,
              ⟨"No scoring text here".data, none, none⟩⟩ := by
  refine ⟨fun text ds h => ?_, by decide⟩
  obtain ⟨d1, d2, d3, rfl⟩ := scoringDescs_shape text ds h
  refine ⟨?_, fun d _ => ⟨rfl, rfl⟩⟩
  unfold element.format_scoring
  rw [h]
  rfl

/-- Witness for C7: the general statement applied to the concrete
scoring text. -/
theorem C7_scoring_phrase_witness :
    element.format_scoring
      "Met\nPartially Met\nNot Met\nThe organization meets 5 factors\nThe organization meets 3-4 factors\nNo scoring text here".data
      = some
        ⟨element.mkScoreEntry
          (["The organization meets 5 factors".data,
            "The organization meets 3-4 factors".data,
            "No scoring text here".data].getD 0 []),
         element.mkScoreEntry
          (["The organization meets 5 factors".data,
            "The organization meets 3-4 factors".data,
            "No scoring text here".data].getD 1 []),
         element.mkScoreEntry
          (["The organization meets 5 factors".data,
            "The organization meets 3-4 factors".data,
            "No scoring text here".data].getD 2 [])⟩ :=
  (C7_scoring_phrase.1
    "Met\nPartially Met\nNot Met\nThe organization meets 5 factors\nThe organization meets 3-4 factors\nNo scoring text here".data
    ["The organization meets 5 factors".data,
     "The organization meets 3-4 factors".data,
     "No scoring text here".data] (by decide)).1

/-- Group count equals the boundary-line count. -/
theorem groupGo_length (ls : List (List Char)) :
    ∀ cur, (element.groupGo ls cur).length
      = (ls.filter element.isBoundary).length + (if cur = [] then 0 else 1) := by
  induction ls with
  | nil =>
    intro cur
    by_cases h : cur = [] <;> simp [element.groupGo, h]
  | cons l ls ih =>
    intro cur
    by_cases hb : element.isBoundary l = true
    · by_cases hc : cur = [] <;>
        simp [element.groupGo, hb, hc, List.filter_cons, ih]
    · by_cases hc : cur = [] <;>
        simp [element.groupGo, hb, hc, List.filter_cons, ih]

/-- Claim C8: with the `Not Met` label line found, `format_scoring`
raises whenever the number of boundary lines after it differs from three,
and with exactly three boundaries it slices the block into three spans
assigned to Met, Partially Met, Not Met in that fixed order. -/
theorem C8_scoring_boundaries (text : List Char) (idx : Nat)
    (hidx : element.idxOf "Not Met".data (element.cleanLines text) = some idx) :
    ((((element.cleanLines text).drop (idx + 1)).filter element.isBoundary).length ≠ 3 →
      element.format_scoring text = none) ∧
    (∀ g1 g2 g3,
      element.groupGo ((element.cleanLines text).drop (idx + 1)) [] = [g1, g2, g3] →
      element.format_scoring text = some
        ⟨element.mkScoreEntry (stripL (joinC '\n' g1)),
         element.mkScoreEntry (stripL (joinC '\n' g2)),
         element.mkScoreEntry (stripL (joinC '\n' g3))⟩) := by
  have hcount := groupGo_length ((element.cleanLines text).drop (idx + 1)) []
  rw [if_pos rfl, Nat.add_zero] at hcount
  have hsdeq : element.scoringDescs text =
      (if (element.cleanLines text).drop (idx + 1) = [] then none
       else
         match element.groupGo ((element.cleanLines text).drop (idx + 1)) [] with
         | [g1, g2, g3] =>
           some [stripL (joinC '\n' g1), stripL (joinC '\n' g2),
             stripL (joinC '\n' g3)]
         | _ => none) := by
    unfold element.scoringDescs
    rw [hidx]
  constructor
  · intro hne
    have hsd : element.scoringDescs text = none := by
      rw [hsdeq]
      by_cases hde : (element.cleanLines text).drop (idx + 1) = []
      · rw [if_pos hde]
      · rw [if_neg hde]
        rcases hg : element.groupGo ((element.cleanLines text).drop (idx + 1)) []
          with _ | ⟨g1, _ | ⟨g2, _ | ⟨g3, _ | ⟨g4, gs⟩⟩⟩⟩
        · rfl
        · rfl
        · rfl
        · exfalso
          rw [hg] at hcount
          simp at hcount
          omega
        · rfl
    unfold element.format_scoring
    rw [hsd]
  · intro g1 g2 g3 hg
    have hde : (element.cleanLines text).drop (idx + 1) ≠ [] := by
      intro hnil
      rw [hnil] at hg
      simp [element.groupGo] at hg
    have hsd : element.scoringDescs text =
        some [stripL (joinC '\n' g1), stripL (joinC '\n' g2),
          stripL (joinC '\n' g3)] := by
      rw [hsdeq, if_neg hde, hg]
    unfold element.format_scoring
    rw [hsd]

/-- Witness for C8: a concrete scoring text with exactly three boundary
lines, one of which is a continuation block. -/
theorem C8_scoring_boundaries_witness :
    element.format_scoring
      "Met\nNot Met\nThe org\nlower line continues\nAnother desc\nThird desc 1-2-3 factors".data
      = some
        ⟨element.mkScoreEntry (stripL (joinC '\n'
            ["The org".data, "lower line continues".data])),
         element.mkScoreEntry (stripL (joinC '\n' ["Another desc".data])),
         element.mkScoreEntry (stripL (joinC '\n'
            ["Third desc 1-2-3 factors".data]))⟩ :=
  (C8_scoring_boundaries
    "Met\nNot Met\nThe org\nlower line continues\nAnother desc\nThird desc 1-2-3 factors".data
    1 (by decide)).2
    ["The org".data, "lower line continues".data]
    ["Another desc".data]
    ["Third desc 1-2-3 factors".data] (by decide)

/-- Counterexample for C9 as stated: a first page with five non-blank
lines and no header match is not skipped — its text (`leaked body`,
`more leak`) ends up in the body of the first standard found later. -/
theorem C9_counterexample :
    standard.separate_pages_by_standard_v2
      ["junk0\njunk1\njunk2\njunk3\nleaked body\nmore leak".data,
       "QI 1: Title\nh1\nh2\nh3\nQI 1: Body start\nbody line".data]
      = [("QI 1: Title".data,
          "leaked body\nmore leak\nQI 1: Body start\nbody line".data)] := by
  decide

/-- Claim C9 (amended): in tolerant mode a pre-header page with at least
five non-blank lines whose line 4 does not match is not skipped — its
line-4-onward text is prepended to the first discovered standard's
body. -/
theorem C9_preheader_leak (p0 p1 : List Char)
    (h0 : 5 ≤ (standard.pageLines p0).length)
    (hnm : standard.stdHeaderMatch ((standard.pageLines p0).getD 4 []) = false)
    (h1 : 5 ≤ (standard.pageLines p1).length)
    (hm : standard.stdHeaderMatch ((standard.pageLines p1).getD 4 []) = true) :
    standard.separate_pages_by_standard_v2 [p0, p1] =
      [((standard.pageLines p1).getD 0 [],
        stripL (joinC '\n'
          [stripL (joinC '\n' ((standard.pageLines p0).drop 4)),
           stripL (joinC '\n' ((standard.pageLines p1).drop 4))]))] := by
  unfold standard.separate_pages_by_standard_v2
  rw [standard.v2Go,
    if_neg (by omega : ¬ (standard.pageLines p0).length < 5),
    if_neg (show ¬ standard.stdHeaderMatch ((standard.pageLines p0).getD 4 [])
        = true by
      intro hcontra
      rw [hnm] at hcontra
      exact Bool.false_ne_true hcontra),
    standard.v2Go,
    if_neg (by omega : ¬ (standard.pageLines p1).length < 5),
    if_pos hm]
  rw [standard.v2Go]
  simp [standard.upsert]

/-- Witness for the amended C9: the concrete leaking pair of pages. -/
theorem C9_preheader_leak_witness :
    standard.separate_pages_by_standard_v2
      ["junk0\njunk1\njunk2\njunk3\nleaked body\nmore leak".data,
       "QI 1: Title\nh1\nh2\nh3\nQI 1: Body start\nbody line".data]
      = [((standard.pageLines
            "QI 1: Title\nh1\nh2\nh3\nQI 1: Body start\nbody line".data).getD 0 [],
          stripL (joinC '\n'
            [stripL (joinC '\n' ((standard.pageLines
                "junk0\njunk1\njunk2\njunk3\nleaked body\nmore leak".data).drop 4)),
             stripL (joinC '\n' ((standard.pageLines
                "QI 1: Title\nh1\nh2\nh3\nQI 1: Body start\nbody line".data).drop 4))]))] :=
  C9_preheader_leak
    "junk0\njunk1\njunk2\njunk3\nleaked body\nmore leak".data
    "QI 1: Title\nh1\nh2\nh3\nQI 1: Body start\nbody line".data
    (by decide) (by decide) (by decide) (by decide)

/-- Skipping non-qualifying lines in the data-source loop. -/
theorem dsGo_skip :
    ∀ (ls1 rest : List (List Char)),
      (∀ l ∈ ls1, ¬ l.map lowerC = "data source".data ∧
        ¬ l.map lowerC = "data".data) →
      element.dsGo (ls1 ++ rest) = element.dsGo rest := by
  intro ls1
  induction ls1 with
  | nil => intro rest _; rfl
  | cons l ls ih =>
    intro rest h
    have h1 := h l (by simp)
    rw [List.cons_append, element.dsGo.eq_def]
    simp only [if_neg h1.1, if_neg h1.2]
    exact ih rest (fun l' hl' => h l' (by simp [hl']))

/-- Counterexample for C10 as stated: a body starting with
`Not Applicable` contains no data-source line, yet `get_data_source`
returns the empty-string sentinel instead of raising. -/
theorem C10_counterexample :
    element.get_data_source "Not Applicable".data = some .notApplicable ∧
    (element.cleanLines "Not Applicable".data).all
      (fun l => !(l.map lowerC == "data source".data) &&
                !(l.map lowerC == "data".data)) = true := by
  decide

/-- Claim C10 (amended): for a body not starting with `Not Applicable`,
`get_data_source` raises when no (case-insensitive) `Data source` or
`Data` line exists; the first such line determines the result — the
following line (`Data source`) or the line two positions later (`Data`),
split on commas into a trimmed list, raising when the needed follower
lines are missing. -/
theorem C10_data_source (body : List Char)
    (hna : prefixAt "Not Applicable".data body = false) :
    ((∀ l ∈ element.cleanLines body,
        ¬ l.map lowerC = "data source".data ∧ ¬ l.map lowerC = "data".data) →
      element.get_data_source body = none) ∧
    (∀ ls1 x rest, element.cleanLines body = ls1 ++ x :: rest →
      (∀ l ∈ ls1, ¬ l.map lowerC = "data source".data ∧
        ¬ l.map lowerC = "data".data) →
      ((x.map lowerC = "data source".data →
          (rest = [] → element.get_data_source body = none) ∧
          (∀ y ys, rest = y :: ys →
            element.get_data_source body
              = some (.sources (element.splitTrim y)))) ∧
       (x.map lowerC = "data".data →
          (rest.length < 2 → element.get_data_source body = none) ∧
          (∀ y z zs, rest = y :: z :: zs →
            element.get_data_source body
              = some (.sources (element.splitTrim z)))))) := by
  have hbase : element.get_data_source body
      = element.dsGo (element.cleanLines body) := by
    unfold element.get_data_source
    rw [if_neg (by simp [hna])]
  constructor
  · intro h
    rw [hbase]
    have := dsGo_skip (element.cleanLines body) [] h
    rw [List.append_nil] at this
    rw [this]
    rfl
  · intro ls1 x rest hcl hls1
    rw [hbase, hcl, dsGo_skip ls1 (x :: rest) hls1]
    constructor
    · intro hx
      constructor
      · intro hrest
        subst hrest
        simp [element.dsGo, hx]
      · intro y ys hrest
        subst hrest
        simp [element.dsGo, hx]
    · intro hx
      have hx' : ¬ x.map lowerC = "data source".data := by
        rw [hx]
        decide
      constructor
      · intro hlen
        rcases rest with _ | ⟨y, _ | ⟨z, zs⟩⟩
        · simp [element.dsGo, hx', hx]
        · simp [element.dsGo, hx', hx]
        · simp only [List.length_cons] at hlen
          omega
      · intro y z zs hrest
        subst hrest
        simp [element.dsGo, hx', hx]

/-- Witness for the amended C10: a body whose first line is the
`Data source` marker. -/
theorem C10_data_source_witness :
    element.get_data_source "Data source\nDocumented process, Reports".data
      = some (.sources (element.splitTrim "Documented process, Reports".data)) :=
  (((C10_data_source "Data source\nDocumented process, Reports".data
      (by decide)).2 [] "Data source".data
      ["Documented process, Reports".data] (by decide)
      (by simp)).1 (by decide)).2
    "Documented process, Reports".data [] rfl

/-- An element-header match always consumes at least one character. -/
theorem tryElemHeader_pos (x : List Char) (k : Nat)
    (h : standard.tryElemHeader x = some k) : 0 < k := by
  simp only [standard.tryElemHeader] at h
  repeat' split at h
  all_goals
    first
    | (simp only [Option.some.injEq] at h; omega)
    | exact absurd h (by simp)

/-- Invariants of the element-header scan: every match starts at or after
the current position (plus pending skip), every match starts inside the
text, every match is nonempty, and consecutive matches do not overlap. -/
theorem elemGo_spec :
    ∀ (l : List Char) (b : Bool) (skip pos : Nat),
      (∀ m ∈ standard.elemGo l b skip pos,
        pos + skip ≤ m.1 ∧ m.1 < pos + l.length ∧ 0 < m.2) ∧
      List.Chain' (fun a c => a.1 + a.2 ≤ c.1) (standard.elemGo l b skip pos) := by
  intro l
  induction l with
  | nil =>
    intro b skip pos
    exact ⟨fun m hm => absurd hm (List.not_mem_nil m), List.chain'_nil⟩
  | cons c cs ih =>
    intro b skip pos
    rw [standard.elemGo]
    by_cases hskip : 0 < skip
    · rw [if_pos hskip]
      obtain ⟨ihm, ihc⟩ := ih (c == '\n') (skip - 1) (pos + 1)
      refine ⟨fun m hm => ?_, ihc⟩
      obtain ⟨h1, h2, h3⟩ := ihm m hm
      refine ⟨by omega, by simp only [List.length_cons]; omega, h3⟩
    · rw [if_neg hskip]
      have hskip0 : skip = 0 := by omega
      subst hskip0
      by_cases hls : b = true
      · rw [if_pos hls]
        cases hh : standard.tryElemHeader (c :: cs) with
        | none =>
          obtain ⟨ihm, ihc⟩ := ih (c == '\n') 0 (pos + 1)
          refine ⟨fun m hm => ?_, ihc⟩
          obtain ⟨h1, h2, h3⟩ := ihm m hm
          refine ⟨by omega, by simp only [List.length_cons]; omega, h3⟩
        | some k =>
          have hk := tryElemHeader_pos _ _ hh
          obtain ⟨ihm, ihc⟩ := ih (c == '\n') (k - 1) (pos + 1)
          constructor
          · intro m hm
            rcases List.mem_cons.mp hm with rfl | hm'
            · exact ⟨by omega, by simp only [List.length_cons]; omega, hk⟩
            · obtain ⟨h1, h2, h3⟩ := ihm m hm'
              refine ⟨by omega, by simp only [List.length_cons]; omega, h3⟩
          · rw [List.chain'_cons']
            refine ⟨fun y hy => ?_, ihc⟩
            have hy' : y ∈ standard.elemGo cs (c == '\n') (k - 1) (pos + 1) :=
              List.mem_of_mem_head? hy
            obtain ⟨h1, _, _⟩ := ihm y hy'
            simp only []
            omega
      · rw [if_neg hls]
        obtain ⟨ihm, ihc⟩ := ih (c == '\n') 0 (pos + 1)
        refine ⟨fun m hm => ?_, ihc⟩
        obtain ⟨h1, h2, h3⟩ := ihm m hm
        refine ⟨by omega, by simp only [List.length_cons]; omega, h3⟩

/-- The spans have the same length and the same start positions as the
matches, are contiguous, and the last span ends at the text length. -/
theorem spansGo_spec (len : Nat) :
    ∀ ms : List (Nat × Nat),
      (standard.spansGo len ms).length = ms.length ∧
      (standard.spansGo len ms).map Prod.fst = ms.map Prod.fst ∧
      List.Chain' (fun a c => a.2 = c.1) (standard.spansGo len ms) ∧
      (ms ≠ [] →
        (standard.spansGo len ms).getLast?.map Prod.snd = some len) := by
  intro ms
  induction ms with
  | nil => exact ⟨rfl, rfl, List.chain'_nil, fun h => absurd rfl h⟩
  | cons m rest ih =>
    obtain ⟨s, k⟩ := m
    obtain ⟨ih1, ih2, ih3, ih4⟩ := ih
    cases rest with
    | nil =>
      exact ⟨rfl, rfl, by simp [standard.spansGo],
        fun _ => by simp [standard.spansGo, standard.spanEnd]⟩
    | cons m2 rest2 =>
      obtain ⟨s2, k2⟩ := m2
      refine ⟨by simpa [standard.spansGo] using ih1,
        by simpa [standard.spansGo] using ih2, ?_, fun _ => ?_⟩
      · rw [standard.spansGo, List.chain'_cons']
        constructor
        · intro y hy
          rw [standard.spansGo] at hy
          simp only [List.head?_cons, Option.mem_def, Option.some.injEq] at hy
          subst hy
          rfl
        · exact ih3
      · have h2 := ih4 (by simp)
        rw [standard.spansGo] at h2
        rw [standard.spansGo, standard.spansGo, List.getLast?_cons_cons]
        exact h2

/-- Every span is nonempty, given the scan invariants. -/
theorem spansGo_pos (len : Nat) :
    ∀ ms : List (Nat × Nat),
      List.Chain' (fun a c => a.1 + a.2 ≤ c.1) ms →
      (∀ m ∈ ms, 0 < m.2 ∧ m.1 < len) →
      ∀ sp ∈ standard.spansGo len ms, sp.1 < sp.2 := by
  intro ms
  induction ms with
  | nil => intro _ _ sp hsp; exact absurd hsp (List.not_mem_nil sp)
  | cons m rest ih =>
    intro hchain hall sp hsp
    obtain ⟨s, k⟩ := m
    cases rest with
    | nil =>
      rw [standard.spansGo] at hsp
      rcases List.mem_cons.mp hsp with rfl | hsp'
      · exact (hall (s, k) (by simp)).2
      · exact absurd hsp' (by simp [standard.spansGo])
    | cons m2 rest2 =>
      obtain ⟨s2, k2⟩ := m2
      rw [standard.spansGo] at hsp
      rcases List.mem_cons.mp hsp with rfl | hsp'
      · have hrel : s + k ≤ s2 := (List.chain'_cons.mp hchain).1
        have hk := (hall (s, k) (by simp)).1
        simp only [standard.spanEnd]
        omega
      · exact ih (List.chain'_cons.mp hchain).2
          (fun m hm => hall m (by simp [hm])) sp hsp'

/-- The keys after a dict assignment. -/
theorem upsert_keys (k v : List Char) :
    ∀ acc : List (List Char × List Char),
      (standard.upsert k v acc).map Prod.fst =
        (if k ∈ acc.map Prod.fst then acc.map Prod.fst
         else acc.map Prod.fst ++ [k]) := by
  intro acc
  induction acc with
  | nil => simp [standard.upsert]
  | cons e rest ih =>
    obtain ⟨k', v'⟩ := e
    by_cases hk : k' = k
    · subst hk
      simp [standard.upsert]
    · rw [standard.upsert, if_neg hk]
      by_cases hmem : k ∈ rest.map Prod.fst
      · simp [hmem, ih, Ne.symm hk]
      · simp [hmem, ih, Ne.symm hk]

/-- The length after a dict assignment. -/
theorem upsert_length (k v : List Char) (acc : List (List Char × List Char)) :
    (standard.upsert k v acc).length =
      (if k ∈ acc.map Prod.fst then acc.length else acc.length + 1) := by
  have h := congrArg List.length (upsert_keys k v acc)
  simp only [List.length_map] at h
  by_cases hmem : k ∈ acc.map Prod.fst
  · rw [if_pos hmem] at h
    rw [if_pos hmem, h, List.length_map]
  · rw [if_neg hmem] at h
    rw [if_neg hmem, h]
    simp

/-- Upper bound: the dict never has more entries than matches. -/
theorem buildElems_le (body : List Char) :
    ∀ (ms : List (Nat × Nat)) (acc : List (List Char × List Char)),
      (standard.buildElems body ms acc).length ≤ acc.length + ms.length := by
  intro ms
  induction ms with
  | nil => intro acc; simp [standard.buildElems]
  | cons m rest ih =>
    intro acc
    obtain ⟨s, k⟩ := m
    rw [standard.buildElems]
    refine le_trans (ih _) ?_
    rw [upsert_length]
    by_cases hmem : standard.titleOf body (s, k) ∈ acc.map Prod.fst
    · rw [if_pos hmem]
      simp only [List.length_cons]
      omega
    · rw [if_neg hmem]
      simp only [List.length_cons]
      omega

/-- With pairwise-distinct fresh titles, the dict has one entry per
match. -/
theorem buildElems_length (body : List Char) :
    ∀ (ms : List (Nat × Nat)) (acc : List (List Char × List Char)),
      (∀ m ∈ ms, standard.titleOf body m ∉ acc.map Prod.fst) →
      (ms.map (standard.titleOf body)).Nodup →
      (standard.buildElems body ms acc).length = acc.length + ms.length := by
  intro ms
  induction ms with
  | nil => intro acc _ _; simp [standard.buildElems]
  | cons m rest ih =>
    intro acc hfresh hnd
    obtain ⟨s, k⟩ := m
    have hnew : standard.titleOf body (s, k) ∉ acc.map Prod.fst :=
      hfresh (s, k) (by simp)
    rw [List.map_cons, List.nodup_cons] at hnd
    have hfresh2 : ∀ m ∈ rest, standard.titleOf body m ∉
        (standard.upsert (standard.titleOf body (s, k))
          (stripL ((body.drop (s + (standard.titleOf body (s, k)).length)).take
            (standard.spanEnd body.length rest
              - (s + (standard.titleOf body (s, k)).length)))) acc).map Prod.fst := by
      intro m hm hin
      rw [upsert_keys, if_neg hnew] at hin
      rcases List.mem_append.mp hin with hin' | hin'
      · exact hfresh m (by simp [hm]) hin'
      · rw [List.mem_singleton] at hin'
        exact hnd.1 (hin' ▸ List.mem_map_of_mem (standard.titleOf body) hm)
    rw [standard.buildElems, ih _ hfresh2 hnd.2, upsert_length, if_neg hnew]
    simp only [List.length_cons]
    omega

/-- Counterexample for C2 as stated: a body with text before the first
header and two identical headers has k = 2 matching lines but only one
entry, and the spans start at position 4, leaving the prefix `pre\n`
uncovered. -/
theorem C2_counterexample :
    standard.standard_to_elements "pre\nElement A: T\nElement A: T".data
      = some [("Element A: T".data, [])] ∧
    standard.elementMatches "pre\nElement A: T\nElement A: T".data
      = [(4, 12), (17, 12)] ∧
    standard.spansOf "pre\nElement A: T\nElement A: T".data
      = [(4, 17), (17, 29)] := by
  decide

/-- Claim C2 (amended): for a Standard body with at least one element
header, the header-plus-body spans are contiguous, non-overlapping and
together cover the body from the first header to the end (text before the
first header is not covered), and the returned mapping has exactly one
entry per match provided the normalised titles are pairwise distinct
(duplicate titles collapse). -/
theorem C2_element_spans (body : List Char)
    (hne : standard.elementMatches body ≠ []) :
    (standard.spansOf body).length = (standard.elementMatches body).length ∧
    (standard.spansOf body).map Prod.fst
      = (standard.elementMatches body).map Prod.fst ∧
    List.Chain' (fun a c => a.2 = c.1) (standard.spansOf body) ∧
    (standard.spansOf body).getLast?.map Prod.snd = some body.length ∧
    (∀ sp ∈ standard.spansOf body, sp.1 < sp.2) ∧
    (∀ es, standard.standard_to_elements body = some es →
      es.length ≤ (standard.elementMatches body).length ∧
      ((standard.elementTitles body).Nodup →
        es.length = (standard.elementMatches body).length)) := by
  obtain ⟨hsl, hsf, hsc, hslast⟩ := spansGo_spec body.length (standard.elementMatches body)
  obtain ⟨hall, hchain⟩ := elemGo_spec body true 0 0
  refine ⟨hsl, hsf, hsc, hslast hne, ?_, ?_⟩
  · exact spansGo_pos body.length (standard.elementMatches body) hchain
      (fun m hm => ⟨(hall m hm).2.2, by simpa using (hall m hm).2.1⟩)
  · intro es hes
    unfold standard.standard_to_elements at hes
    rcases hms : standard.elementMatches body with _ | ⟨m0, ms'⟩
    · exact absurd hms hne
    · rw [hms] at hes
      simp only [Option.some.injEq] at hes
      subst hes
      constructor
      · have := buildElems_le body (m0 :: ms') []
        simpa [hms] using this
      · intro hnd
        have := buildElems_length body (m0 :: ms') []
          (fun m _ => by simp) (by rwa [standard.elementTitles, hms] at hnd)
        simpa using this

/-- Witness for the amended C2: the two-header body from the
counterexample satisfies the span invariants. -/
theorem C2_element_spans_witness :
    (standard.spansOf "pre\nElement A: T\nElement A: T".data).length
      = (standard.elementMatches "pre\nElement A: T\nElement A: T".data).length :=
  (C2_element_spans "pre\nElement A: T\nElement A: T".data (by decide)).1

/-- Witness for C5: the general statement applied to the scenario text at
factor 1. -/
theorem C5_explanation_blocks_witness :
    factor.get_explanation "Factors 1,3\nAAA\nFactors 2\nBBB".data 1
      = some (stripL (joinC ' '
        (((factor.explMatches "Factors 1,3\nAAA\nFactors 2\nBBB".data).filter
            (fun m => ((factor.expandSpec m.1).getD []).contains 1)).map
          (fun m => normWS (stripL m.2))))) :=
  C5_explanation_blocks.1 "Factors 1,3\nAAA\nFactors 2\nBBB".data 1
    (by decide) (by decide) (by decide)

end Ncqa
